import Mathlib

/-
Shallow embedding of the Kademlia routing-table core (nireo/dht):
  src/node.rs       - 160-bit identifiers with XOR distance
  src/kbucket.rs    - capacity-bounded buckets with a replacement cache
  src/node_heap.rs  - distance-ordered candidate heap with contacted tracking

Machine bytes (u8) are modelled as Nat; real identifiers carry 20 bytes.
u128 values are Nat with an explicit % 2^128 where overflow matters.
IndexMap is modelled as an association list in insertion order; its
real counterpart never holds duplicate keys, which here is an invariant.
Rust's BinaryHeap is modelled as a multiset (a list) whose pop extracts
a minimal element under the entry ordering (HeapEntry's Ord compares
reversed distances, making the heap a min-heap on distance).
-/

namespace Dht

/-- NodeId from src/node.rs: a 20-byte (160-bit) identifier. The byte
array is modelled as a list of Nat; real identifiers have length 20
with every byte below 256. -/
structure NodeId where
  bytes : List Nat
deriving DecidableEq, Repr

/-- Node from src/node.rs: an identifier plus an optional network
address. IpAddr is abstracted to a Nat. -/
structure Node where
  id : NodeId
  ip : Option Nat
  port : Option Nat
deriving DecidableEq, Repr

/-- NodeId::distance - byte-wise XOR of the two identifiers. -/
def NodeId.distance (a b : NodeId) : NodeId :=
  ⟨List.zipWith Nat.xor a.bytes b.bytes⟩

/-- Node::distance_to - XOR distance between the two nodes' identifiers. -/
def Node.distance_to (a b : Node) : NodeId :=
  a.id.distance b.id

/-- NodeId::from_slice - succeeds exactly on 20-byte input. -/
def NodeId.from_slice (slice : List Nat) : Option NodeId :=
  if slice.length = 20 then some ⟨slice⟩ else none

/-- Lexicographic comparison of byte sequences: the derived Ord on
Rust's [u8; 20] (used by HeapEntry's Ord via NodeId's derived Ord). -/
def bytesCompare : List Nat → List Nat → Ordering
  | [], [] => Ordering.eq
  | [], _ :: _ => Ordering.lt
  | _ :: _, [] => Ordering.gt
  | a :: as, b :: bs =>
    if a < b then Ordering.lt
    else if b < a then Ordering.gt
    else bytesCompare as bs

/-- One entry of the association-list model of IndexMap<NodeId, Node>. -/
abbrev IMap := List (NodeId × Node)

/-- Keys of an IndexMap in insertion order. -/
def keysOf (l : IMap) : List NodeId := l.map Prod.fst

/-- Values of an IndexMap in insertion order (IndexMap::values). -/
def valuesOf (l : IMap) : List Node := l.map Prod.snd

/-- IndexMap::contains_key. -/
def imContains (l : IMap) (k : NodeId) : Bool :=
  l.any (fun p => decide (p.1 = k))

/-- IndexMap::get. -/
def imGet (l : IMap) (k : NodeId) : Option Node :=
  (l.find? (fun p => decide (p.1 = k))).map Prod.snd

/-- IndexMap::shift_remove - removes the entry with the given key,
shifting the rest down (i.e. order-preserving removal). -/
def imShiftRemove (l : IMap) (k : NodeId) : IMap :=
  l.filter (fun p => !decide (p.1 = k))

/-- IndexMap::insert - if the key is present its value is updated in
place; otherwise the pair is appended at the end. -/
def imInsert (l : IMap) (k : NodeId) (v : Node) : IMap :=
  if imContains l k then l.map (fun p => if p.1 = k then (k, v) else p)
  else l ++ [(k, v)]

/-- Pairs a list of nodes with their own ids, as stored in an IndexMap. -/
def pairsOf (ns : List Node) : IMap := ns.map (fun n => (n.id, n))

/-- node_id_to_u128 from src/kbucket.rs: big-endian value of the first
16 bytes (a deliberate truncation of the 160-bit identifier). -/
def node_id_to_u128 (id : NodeId) : Nat :=
  (id.bytes.take 16).foldl (fun acc b => acc * 256 + b) 0

/-- KBucket from src/kbucket.rs. The last_updated timestamp (an Instant
only read back by accessors) is omitted from the model. -/
structure KBucket where
  rstart : Nat
  rend : Nat
  nodes : IMap
  replacement_nodes : IMap
  ksize : Nat
  max_replacement_nodes : Nat
deriving DecidableEq, Repr

/-- KBucket::new. -/
def KBucket.new (range_low range_upper ksize replacement_node_factor : Nat) : KBucket :=
  { rstart := range_low
    rend := range_upper
    nodes := []
    replacement_nodes := []
    ksize := ksize
    max_replacement_nodes := ksize * replacement_node_factor }

/-- The while loop at the end of KBucket::add_node: pop index 0 while
the replacement map exceeds its bound. -/
def trimFront : IMap → Nat → IMap
  | [], _ => []
  | p :: rest, maxLen =>
    if rest.length + 1 > maxLen then trimFront rest maxLen else p :: rest

/-- KBucket::add_node. Returns the updated bucket and the method's
boolean result (true iff the node went into the main map). -/
def KBucket.add_node (b : KBucket) (node : Node) : KBucket × Bool :=
  let node_id := node.id
  if imContains b.nodes node_id then
    ({ b with nodes := imInsert (imShiftRemove b.nodes node_id) node_id node }, true)
  else if b.nodes.length < b.ksize then
    ({ b with nodes := imInsert b.nodes node_id node }, true)
  else
    let r := imInsert (imShiftRemove b.replacement_nodes node_id) node_id node
    ({ b with replacement_nodes := trimFront r b.max_replacement_nodes }, false)

/-- KBucket::remove_node. -/
def KBucket.remove_node (b : KBucket) (node : Node) : KBucket :=
  let b1 : KBucket := { b with replacement_nodes := imShiftRemove b.replacement_nodes node.id }
  if imContains b1.nodes node.id then
    let nodes1 := imShiftRemove b1.nodes node.id
    match b1.replacement_nodes with
    | [] => { b1 with nodes := nodes1 }
    | q :: rest => { b1 with nodes := imInsert nodes1 q.1 q.2, replacement_nodes := rest }
  else b1

/-- KBucket::has_in_range. -/
def KBucket.has_in_range (b : KBucket) (node : Node) : Bool :=
  decide (b.rstart ≤ node_id_to_u128 node.id) && decide (node_id_to_u128 node.id ≤ b.rend)

/-- KBucket::split. The u128 sum rstart + rend is taken modulo 2^128
(wrapping on overflow); each held node is re-added to the child whose
side of the midpoint its truncated magnitude falls on. -/
def KBucket.split (b : KBucket) : KBucket × KBucket :=
  let midpoint := ((b.rstart + b.rend) % (2 ^ 128)) / 2
  let one := KBucket.new b.rstart midpoint b.ksize (b.max_replacement_nodes / b.ksize)
  let two := KBucket.new (midpoint + 1) b.rend b.ksize (b.max_replacement_nodes / b.ksize)
  let all_nodes := valuesOf b.nodes ++ valuesOf b.replacement_nodes
  all_nodes.foldl
    (fun pr node =>
      if node_id_to_u128 node.id ≤ midpoint then ((pr.1.add_node node).1, pr.2)
      else (pr.1, (pr.2.add_node node).1))
    (one, two)

/-- Sequential insertion of a list of nodes, collecting the boolean
result of each KBucket::add_node call (the spec's test scenarios). -/
def KBucket.add_all : KBucket → List Node → KBucket × List Bool
  | b, [] => (b, [])
  | b, n :: ns =>
    let p := b.add_node n
    let q := p.1.add_all ns
    (q.1, p.2 :: q.2)

/-- Bits of one byte, most significant first (format "{:08b}"). -/
def byteToBits (b : Nat) : List Nat :=
  (List.range 8).map (fun i => b / 2 ^ (7 - i) % 2)

/-- node_id_to_bit_string from src/kbucket.rs, as a list of bits. -/
def node_id_to_bit_string (id : NodeId) : List Nat :=
  (id.bytes.map byteToBits).flatten

/-- One step of the shared-prefix loop: does every string have
character c at index i? -/
def allNthEq (bss : List (List Nat)) (i : Nat) (c : Nat) : Bool :=
  bss.all (fun s => s.get? i == some c)

/-- The loop body of shared_prefix: walk the first string, keeping
characters while all strings agree at that index, stopping at the
first mismatch. -/
def spAux (bss : List (List Nat)) : List Nat → Nat → List Nat
  | [], _ => []
  | c :: rest, i => if allNthEq bss i c then c :: spAux bss rest (i + 1) else []

/-- shared_prefix from src/kbucket.rs. -/
def shared_prefix (bss : List (List Nat)) : List Nat :=
  match bss with
  | [] => []
  | first :: _ => spAux bss first 0

/-- KBucket::depth - length of the longest common bit prefix of the
active nodes' identifiers. -/
def KBucket.depth (b : KBucket) : Nat :=
  if b.nodes.isEmpty then 0
  else ( shared_prefix (b.nodes.map (fun p => node_id_to_bit_string p.2.id))).length

/-- HeapEntry from src/node_heap.rs: a node tagged with its XOR
distance to the heap's reference node. Its Ord compares distances
reversed, making Rust's max-BinaryHeap behave as a min-heap on
distance; here the heap is a list and popping extracts a minimal
entry directly. -/
structure HeapEntry where
  distance : NodeId
  node : Node
deriving DecidableEq, Repr

/-- Extraction of a minimal-distance entry from the heap's contents:
the contract of BinaryHeap::pop under HeapEntry's reversed ordering.
Among entries of equal distance BinaryHeap's choice is unspecified;
this model picks the earliest. -/
def extractMin : List HeapEntry → Option (HeapEntry × List HeapEntry)
  | [] => none
  | e :: rest =>
    match extractMin rest with
    | none => some (e, [])
    | some (m, rest2) =>
      if bytesCompare e.distance.bytes m.distance.bytes = Ordering.gt then
        some (m, e :: rest2)
      else some (e, rest)

/-- Stable insertion into a distance-sorted list (ascending). -/
def insertByDist (e : HeapEntry) : List HeapEntry → List HeapEntry
  | [] => [e]
  | x :: xs =>
    if bytesCompare x.distance.bytes e.distance.bytes = Ordering.gt then e :: x :: xs
    else x :: insertByDist e xs

/-- The sort_by in NodeHeap::iter: stable ascending sort by distance. -/
def sortByDist : List HeapEntry → List HeapEntry
  | [] => []
  | x :: xs => insertByDist x (sortByDist xs)

/-- NodeHeap from src/node_heap.rs. The HashSet of contacted ids is a
list carrying set membership (insertion skips ids already present). -/
structure NodeHeap where
  node : Node
  heap : List HeapEntry
  contacted : List NodeId
  max_size : Nat
deriving DecidableEq, Repr

/-- NodeHeap::new. -/
def NodeHeap.new (node : Node) (max_size : Nat) : NodeHeap :=
  { node := node, heap := [], contacted := [], max_size := max_size }

/-- NodeHeap::contains - scans the full internal heap. -/
def NodeHeap.contains (h : NodeHeap) (node : Node) : Bool :=
  h.heap.any (fun e => decide (e.node.id = node.id))

/-- NodeHeap::get_node - first entry with the given id in the full
internal heap. -/
def NodeHeap.get_node (h : NodeHeap) (node_id : NodeId) : Option Node :=
  (h.heap.find? (fun e => decide (e.node.id = node_id))).map HeapEntry.node

/-- NodeHeap::remove - rebuild the heap without the given peers; an
early return leaves the heap untouched when the id set is empty. -/
def NodeHeap.remove (h : NodeHeap) (peers : List NodeId) : NodeHeap :=
  if peers.isEmpty then h
  else { h with heap := h.heap.filter (fun e => !peers.any (fun p => decide (e.node.id = p))) }

/-- NodeHeap::mark_contacted - HashSet::insert of the node's id. -/
def NodeHeap.mark_contacted (h : NodeHeap) (node : Node) : NodeHeap :=
  if node.id ∈ h.contacted then h else { h with contacted := h.contacted ++ [node.id] }

/-- NodeHeap::pop_left - BinaryHeap::pop, returning the popped node
and the updated heap. -/
def NodeHeap.pop_left (h : NodeHeap) : Option Node × NodeHeap :=
  match extractMin h.heap with
  | none => (none, h)
  | some (e, rest) => (some e.node, { h with heap := rest })

/-- NodeHeap::push - for each node not already present, push an entry
keyed by its distance to the reference node. -/
def NodeHeap.push (h : NodeHeap) (nodes : List Node) : NodeHeap :=
  nodes.foldl
    (fun h n =>
      if h.contains n then h
      else { h with heap := h.heap ++ [HeapEntry.mk (h.node.distance_to n) n] })
    h

/-- NodeHeap::push_one. -/
def NodeHeap.push_one (h : NodeHeap) (node : Node) : NodeHeap :=
  h.push [node]

/-- NodeHeap::len - the visible size: internal size capped by max_size. -/
def NodeHeap.len (h : NodeHeap) : Nat :=
  min h.heap.length h.max_size

/-- NodeHeap::is_empty. -/
def NodeHeap.is_empty (h : NodeHeap) : Bool :=
  h.heap.isEmpty

/-- NodeHeap::iter - the visible view: ascending by distance, capped
at max_size. -/
def NodeHeap.iter (h : NodeHeap) : List Node :=
  ((sortByDist h.heap).take h.max_size).map HeapEntry.node

/-- NodeHeap::to_vec. -/
def NodeHeap.to_vec (h : NodeHeap) : List Node :=
  h.iter

/-- NodeHeap::get_uncontacted - visible view minus contacted ids. -/
def NodeHeap.get_uncontacted (h : NodeHeap) : List Node :=
  h.iter.filter (fun n => !h.contacted.any (fun c => decide (c = n.id)))

/-- NodeHeap::have_contacted_all. -/
def NodeHeap.have_contacted_all (h : NodeHeap) : Bool :=
  h.get_uncontacted.isEmpty

/-- NodeHeap::actual_size - the true internal count. -/
def NodeHeap.actual_size (h : NodeHeap) : Nat :=
  h.heap.length

/-- NodeHeap::clear - empties both the heap and the contacted set. -/
def NodeHeap.clear (h : NodeHeap) : NodeHeap :=
  { h with heap := [], contacted := [] }

/-- NodeHeap::reference_node. -/
def NodeHeap.reference_node (h : NodeHeap) : Node :=
  h.node

/-- Concrete 20-byte identifier whose truncated 128-bit magnitude is x
(for x < 256): fifteen zero bytes, then x, then four zero bytes. -/
def mkId (x : Nat) : NodeId :=
  ⟨List.replicate 15 0 ++ [x] ++ List.replicate 4 0⟩

/-- Concrete address-free node with identifier mkId x. -/
def mkNode (x : Nat) : Node :=
  ⟨mkId x, none, none⟩

/-- Concrete 20-byte identifier with truncated 128-bit magnitude
2^127: a 0x80 byte followed by nineteen zero bytes. -/
def topBitId : NodeId :=
  ⟨128 :: List.replicate 19 0⟩

/-- The right child of splitting a full-space bucket: it covers
[2^127, 2^128 - 1], so its own split adds rstart + rend past the u128
maximum. Holds one peer whose magnitude 2^127 lies in its range. -/
def topHalfBucket : KBucket :=
  KBucket.mk (2 ^ 127) (2 ^ 128 - 1) [(topBitId, ⟨topBitId, none, none⟩)] [] 2 2

/-- Well-formedness of a heap: every stored entry's distance is the
XOR distance from the reference node's identifier to the entry's node,
as established by NodeHeap::push. -/
def HeapWf (h : NodeHeap) : Prop :=
  ∀ e ∈ h.heap, e.distance = h.node.id.distance e.node.id

instance (h : NodeHeap) : Decidable (HeapWf h) := by
  unfold HeapWf
  infer_instance

/-- The KBucket representation invariant carried by every bucket the
code can build: bounded sizes, no duplicate keys, active and
replacement maps disjoint, and each entry keyed by its node's id. -/
def KBucket.Wf (b : KBucket) : Prop :=
  b.nodes.length ≤ b.ksize ∧
  b.replacement_nodes.length ≤ b.max_replacement_nodes ∧
  (keysOf b.nodes).Nodup ∧
  (keysOf b.replacement_nodes).Nodup ∧
  (∀ k ∈ keysOf b.nodes, k ∉ keysOf b.replacement_nodes) ∧
  (∀ p ∈ b.nodes, p.1 = p.2.id) ∧
  (∀ p ∈ b.replacement_nodes, p.1 = p.2.id)

instance (b : KBucket) : Decidable b.Wf := by
  unfold KBucket.Wf
  infer_instance

/-- Strengthening of the invariant that is inductive under the bucket
operations: a nonempty replacement map implies a full active map. -/
def KBucket.StrongInv (b : KBucket) : Prop :=
  b.Wf ∧ (b.replacement_nodes ≠ [] → b.ksize ≤ b.nodes.length)

/-- One public mutation of a bucket. -/
inductive BucketOp where
  | add : Node → BucketOp
  | del : Node → BucketOp

/-- Application of one bucket operation. -/
def applyOp (b : KBucket) : BucketOp → KBucket
  | BucketOp.add n => (b.add_node n).1
  | BucketOp.del n => b.remove_node n

/-- Application of a sequence of bucket operations. -/
def applyOps (b : KBucket) (ops : List BucketOp) : KBucket :=
  ops.foldl applyOp b

/-- The first (most significant) bit of an identifier's bit string. -/
def firstBitOf (id : NodeId) : Option Nat :=
  (node_id_to_bit_string id).get? 0

/-! Helper lemmas about the IndexMap model. -/

theorem mem_keysOf (l : IMap) (k : NodeId) : k ∈ keysOf l ↔ ∃ p ∈ l, p.1 = k := by
  simp [keysOf, List.mem_map]

theorem keysOf_cons (p : NodeId × Node) (l : IMap) : keysOf (p :: l) = p.1 :: keysOf l := rfl

theorem imContains_iff (l : IMap) (k : NodeId) : imContains l k = true ↔ k ∈ keysOf l := by
  simp [imContains, keysOf, List.any_eq_true, List.mem_map]

theorem imContains_eq_false_iff (l : IMap) (k : NodeId) :
    imContains l k = false ↔ k ∉ keysOf l := by
  rw [← Bool.not_eq_true, not_iff_not]
  exact imContains_iff l k

theorem keysOf_imShiftRemove (l : IMap) (k : NodeId) :
    keysOf (imShiftRemove l k) = (keysOf l).filter (fun x => !decide (x = k)) := by
  induction l with
  | nil => rfl
  | cons p rest ih =>
    rw [imShiftRemove, List.filter_cons]
    by_cases h : p.1 = k
    · rw [keysOf_cons, List.filter_cons]
      simp only [h, decide_eq_true_eq, if_pos, decide_True, Bool.not_true, if_false]
      exact ih
    · rw [keysOf_cons, List.filter_cons]
      simp only [h, decide_False, Bool.not_false, if_true, keysOf_cons]
      exact congrArg (fun t => p.1 :: t) ih

theorem imShiftRemove_of_not_mem (l : IMap) (k : NodeId) (h : k ∉ keysOf l) :
    imShiftRemove l k = l := by
  apply List.filter_eq_self.mpr
  intro p hp
  simp only [Bool.not_eq_true', decide_eq_false_iff_not]
  intro hpk
  exact h ((mem_keysOf l k).mpr ⟨p, hp, hpk⟩)

theorem imContains_imShiftRemove_self (l : IMap) (k : NodeId) :
    imContains (imShiftRemove l k) k = false := by
  rw [imContains_eq_false_iff, keysOf_imShiftRemove]
  simp

theorem mem_keysOf_imShiftRemove (l : IMap) (k i : NodeId) :
    i ∈ keysOf (imShiftRemove l k) ↔ i ∈ keysOf l ∧ i ≠ k := by
  rw [keysOf_imShiftRemove]
  simp

theorem nodup_keysOf_imShiftRemove (l : IMap) (k : NodeId) (h : (keysOf l).Nodup) :
    (keysOf (imShiftRemove l k)).Nodup := by
  rw [keysOf_imShiftRemove]
  exact h.filter _

theorem length_imShiftRemove_add_one (l : IMap) (k : NodeId)
    (hnd : (keysOf l).Nodup) (hmem : k ∈ keysOf l) :
    (imShiftRemove l k).length + 1 = l.length := by
  induction l with
  | nil => simp [keysOf] at hmem
  | cons p rest ih =>
    rw [keysOf_cons] at hnd hmem
    rw [List.nodup_cons] at hnd
    rcases List.mem_cons.mp hmem with h | h
    · have hrest : imShiftRemove rest k = rest :=
        imShiftRemove_of_not_mem _ _ (h ▸ hnd.1)
      have h2 : imShiftRemove (p :: rest) k = imShiftRemove rest k := by
        rw [imShiftRemove, List.filter_cons]
        simp only [h.symm, decide_True, Bool.not_true, if_false]
        rfl
      rw [h2, hrest]
      rfl
    · have hpk : p.1 ≠ k := fun he => hnd.1 (he ▸ h)
      have h2 : imShiftRemove (p :: rest) k = p :: imShiftRemove rest k := by
        rw [imShiftRemove, List.filter_cons]
        simp only [hpk, decide_False, Bool.not_false, if_true]
        rfl
      rw [h2]
      have h3 := ih hnd.2 h
      simp only [List.length_cons]
      omega

theorem length_imShiftRemove_le (l : IMap) (k : NodeId) :
    (imShiftRemove l k).length ≤ l.length :=
  List.length_filter_le _ _

theorem imInsert_of_not_contains (l : IMap) (k : NodeId) (v : Node)
    (h : imContains l k = false) : imInsert l k v = l ++ [(k, v)] := by
  simp [imInsert, h]

theorem keysOf_append (l m : IMap) : keysOf (l ++ m) = keysOf l ++ keysOf m := by
  simp [keysOf]

theorem keysOf_pairsOf (ns : List Node) : keysOf (pairsOf ns) = ns.map Node.id := by
  induction ns with
  | nil => rfl
  | cons n ns ih =>
    rw [pairsOf, List.map_cons, keysOf_cons, List.map_cons]
    rw [pairsOf] at ih
    rw [ih]

theorem valuesOf_pairsOf (ns : List Node) : valuesOf (pairsOf ns) = ns := by
  induction ns with
  | nil => rfl
  | cons n ns ih =>
    rw [pairsOf, List.map_cons, valuesOf, List.map_cons]
    rw [pairsOf] at ih
    rw [valuesOf] at ih
    rw [ih]

theorem trimFront_of_le (l : IMap) (m : Nat) (h : l.length ≤ m) : trimFront l m = l := by
  cases l with
  | nil => rfl
  | cons p rest =>
    rw [trimFront, if_neg]
    simp only [List.length_cons] at h
    omega

theorem trimFront_eq_drop (l : IMap) (m : Nat) : trimFront l m = l.drop (l.length - m) := by
  induction l with
  | nil => simp [trimFront]
  | cons p rest ih =>
    rw [trimFront]
    by_cases h : rest.length + 1 > m
    · rw [if_pos h]
      have h1 : (p :: rest).length - m = (rest.length - m) + 1 := by
        simp only [List.length_cons]
        omega
      rw [h1, List.drop_succ_cons]
      exact ih
    · rw [if_neg h]
      have h1 : (p :: rest).length - m = 0 := by
        simp only [List.length_cons]
        omega
      rw [h1, List.drop_zero]

theorem trimFront_length (l : IMap) (m : Nat) :
    (trimFront l m).length = min l.length m := by
  rw [trimFront_eq_drop, List.length_drop]
  omega

/-! Helper lemmas about the NodeHeap model. -/

theorem push_cons (h : NodeHeap) (n : Node) (ns : List Node) :
    h.push (n :: ns) =
      (if h.contains n then h
       else { h with heap := h.heap ++ [HeapEntry.mk (h.node.distance_to n) n] }).push ns := rfl

theorem push_contacted (ns : List Node) (h : NodeHeap) :
    (h.push ns).contacted = h.contacted := by
  induction ns generalizing h with
  | nil => rfl
  | cons n ns ih =>
    rw [push_cons, ih]
    by_cases hc : h.contains n = true <;> simp [hc]

theorem push_node_eq (ns : List Node) (h : NodeHeap) : (h.push ns).node = h.node := by
  induction ns generalizing h with
  | nil => rfl
  | cons n ns ih =>
    rw [push_cons, ih]
    by_cases hc : h.contains n = true <;> simp [hc]

theorem push_of_contains (h : NodeHeap) (m : Node) (hh : h.contains m = true) :
    h.push [m] = h := by
  rw [push_cons, if_pos hh]
  rfl

theorem remove_contacted (h : NodeHeap) (ids : List NodeId) :
    (h.remove ids).contacted = h.contacted := by
  rw [NodeHeap.remove]
  split <;> rfl

theorem pop_left_contacted (h : NodeHeap) : (h.pop_left).2.contacted = h.contacted := by
  rw [NodeHeap.pop_left]
  rcases hE : extractMin h.heap with _ | ⟨e, rest⟩ <;> simp

theorem mark_contacted_mem (h : NodeHeap) (p : Node) :
    p.id ∈ (h.mark_contacted p).contacted := by
  rw [NodeHeap.mark_contacted]
  split
  · next hin => exact hin
  · next _ => simp

theorem mem_get_uncontacted (h : NodeHeap) (n : Node) (hn : n ∈ h.get_uncontacted) :
    ∀ c ∈ h.contacted, c ≠ n.id := by
  rw [NodeHeap.get_uncontacted] at hn
  have h2 := List.of_mem_filter hn
  simp [List.any_eq_true] at h2
  exact h2

/-! Helper lemmas about the byte ordering and extractMin. -/

theorem bc_cons_cons (x y : Nat) (xs ys : List Nat) :
    bytesCompare (x :: xs) (y :: ys) =
      if x < y then Ordering.lt else if y < x then Ordering.gt else bytesCompare xs ys := rfl

theorem bc_nil_ne_gt (c : List Nat) : bytesCompare [] c ≠ Ordering.gt := by
  cases c <;> simp [bytesCompare]

theorem bc_cons_nil_eq_gt (x : Nat) (xs : List Nat) :
    bytesCompare (x :: xs) [] = Ordering.gt := rfl

theorem bc_refl (a : List Nat) : bytesCompare a a = Ordering.eq := by
  induction a with
  | nil => rfl
  | cons x xs ih =>
    rw [bc_cons_cons]
    simp [Nat.lt_irrefl, ih]

theorem bc_le_trans (a : List Nat) : ∀ b c : List Nat,
    bytesCompare a b ≠ Ordering.gt → bytesCompare b c ≠ Ordering.gt →
    bytesCompare a c ≠ Ordering.gt := by
  induction a with
  | nil => intro b c _ _; exact bc_nil_ne_gt c
  | cons x xs ih =>
    intro b c h1 h2
    cases b with
    | nil => exact absurd (bc_cons_nil_eq_gt x xs) h1
    | cons y ys =>
      cases c with
      | nil => exact absurd (bc_cons_nil_eq_gt y ys) h2
      | cons z zs =>
        rw [bc_cons_cons] at h1 h2 ⊢
        by_cases hxy : x < y
        · by_cases hyz : y < z
          · simp [Nat.lt_trans hxy hyz]
          · by_cases hzy : z < y
            · rw [if_neg hyz, if_pos hzy] at h2
              exact absurd rfl h2
            · have hxz : x < z := by omega
              simp [hxz]
        · by_cases hyx : y < x
          · rw [if_neg hxy, if_pos hyx] at h1
            exact absurd rfl h1
          · by_cases hyz : y < z
            · have hxz : x < z := by omega
              simp [hxz]
            · by_cases hzy : z < y
              · rw [if_neg hyz, if_pos hzy] at h2
                exact absurd rfl h2
              · have h1x : bytesCompare xs ys ≠ Ordering.gt := by
                  rwa [if_neg hxy, if_neg hyx] at h1
                have h2x : bytesCompare ys zs ≠ Ordering.gt := by
                  rwa [if_neg hyz, if_neg hzy] at h2
                rw [if_neg (by omega : ¬ x < z), if_neg (by omega : ¬ z < x)]
                exact ih ys zs h1x h2x

theorem bc_gt_iff_lt (a : List Nat) : ∀ b : List Nat,
    bytesCompare a b = Ordering.gt ↔ bytesCompare b a = Ordering.lt := by
  induction a with
  | nil => intro b; cases b <;> simp [bytesCompare]
  | cons x xs ih =>
    intro b
    cases b with
    | nil => simp [bytesCompare]
    | cons y ys =>
      rw [bc_cons_cons, bc_cons_cons]
      by_cases hxy : x < y
      · rw [if_pos hxy, if_neg (by omega : ¬ y < x), if_pos hxy]
        simp
      · by_cases hyx : y < x
        · rw [if_neg hxy, if_pos hyx, if_pos hyx]
          simp
        · rw [if_neg hxy, if_neg hyx, if_neg hyx, if_neg hxy]
          exact ih ys

theorem bc_not_le (a b : List Nat) (h : bytesCompare a b = Ordering.gt) :
    bytesCompare b a ≠ Ordering.gt := by
  rw [(bc_gt_iff_lt a b).mp h]
  simp

theorem extractMin_cons_of_none (e : HeapEntry) (rest : List HeapEntry)
    (h : extractMin rest = none) : extractMin (e :: rest) = some (e, []) := by
  rw [extractMin, h]

theorem extractMin_cons_of_some (e m : HeapEntry) (rest r2 : List HeapEntry)
    (h : extractMin rest = some (m, r2)) :
    extractMin (e :: rest) =
      if bytesCompare e.distance.bytes m.distance.bytes = Ordering.gt then some (m, e :: r2)
      else some (e, rest) := by
  rw [extractMin, h]

theorem extractMin_eq_none (l : List HeapEntry) : extractMin l = none ↔ l = [] := by
  cases l with
  | nil => simp [extractMin]
  | cons e rest =>
    constructor
    · intro h
      rcases h2 : extractMin rest with _ | ⟨m, r2⟩
      · rw [extractMin_cons_of_none e rest h2] at h
        simp at h
      · rw [extractMin_cons_of_some e m rest r2 h2] at h
        by_cases hgt : bytesCompare e.distance.bytes m.distance.bytes = Ordering.gt
        · rw [if_pos hgt] at h
          simp at h
        · rw [if_neg hgt] at h
          simp at h
    · intro h
      exact absurd h (List.cons_ne_nil e rest)

theorem extractMin_spec (l : List HeapEntry) : ∀ m r, extractMin l = some (m, r) →
    m ∈ l ∧ (∀ e ∈ r, e ∈ l) ∧ r.length + 1 = l.length ∧
    (∀ e ∈ l, bytesCompare m.distance.bytes e.distance.bytes ≠ Ordering.gt) := by
  induction l with
  | nil => intro m r h; simp [extractMin] at h
  | cons e rest ih =>
    intro m r h
    rcases h2 : extractMin rest with _ | ⟨m2, r2⟩
    · rw [extractMin_cons_of_none e rest h2] at h
      have hrest : rest = [] := (extractMin_eq_none rest).mp h2
      simp only [Option.some.injEq, Prod.mk.injEq] at h
      obtain ⟨rfl, rfl⟩ := h
      subst hrest
      refine ⟨by simp, by simp, by simp, ?_⟩
      intro e2 he2
      simp only [List.mem_singleton] at he2
      subst he2
      rw [bc_refl]
      simp
    · rw [extractMin_cons_of_some e m2 rest r2 h2] at h
      obtain ⟨hm2, hr2, hlen2, hmin2⟩ := ih m2 r2 h2
      by_cases hgt : bytesCompare e.distance.bytes m2.distance.bytes = Ordering.gt
      · rw [if_pos hgt] at h
        simp only [Option.some.injEq, Prod.mk.injEq] at h
        obtain ⟨h3, h4⟩ := h
        subst h3
        subst h4
        refine ⟨List.mem_cons_of_mem _ hm2, ?_, ?_, ?_⟩
        · intro e2 he2
          rcases List.mem_cons.mp he2 with rfl | hmem
          · exact List.mem_cons_self _ _
          · exact List.mem_cons_of_mem _ (hr2 e2 hmem)
        · simp only [List.length_cons]
          omega
        · intro e2 he2
          rcases List.mem_cons.mp he2 with rfl | hmem
          · exact bc_not_le _ _ hgt
          · exact hmin2 e2 hmem
      · rw [if_neg hgt] at h
        simp only [Option.some.injEq, Prod.mk.injEq] at h
        obtain ⟨h3, h4⟩ := h
        subst h3
        subst h4
        refine ⟨List.mem_cons_self _ _, fun e2 he2 => List.mem_cons_of_mem _ he2, by simp, ?_⟩
        intro e2 he2
        rcases List.mem_cons.mp he2 with rfl | hmem
        · rw [bc_refl]
          simp
        · exact bc_le_trans _ _ _ hgt (hmin2 e2 hmem)

/-! Claim theorems. -/

/-- C8: constructing a NodeId from a byte sequence fails iff the
length is not exactly 20, and on any 20-byte sequence it succeeds with
the identifier's bytes equal to the input. -/
theorem claim_C8 (slice : List Nat) :
    (NodeId.from_slice slice = none ↔ slice.length ≠ 20) ∧
    (slice.length = 20 → NodeId.from_slice slice = some ⟨slice⟩) := by
  constructor
  · by_cases h : slice.length = 20 <;> simp [NodeId.from_slice, h]
  · intro h
    simp [NodeId.from_slice, h]

/-- Witness for C8 at a 20-byte input and at a 3-byte input. -/
theorem claim_C8_witness :
    NodeId.from_slice (List.replicate 20 0) = some ⟨List.replicate 20 0⟩ ∧
    NodeId.from_slice [0, 1, 2] = none :=
  ⟨(claim_C8 (List.replicate 20 0)).2 (by decide),
   (claim_C8 [0, 1, 2]).1.mpr (by decide)⟩

/-- C1 counterexample: a heap with visible bound 1 holding two nodes.
contains is true for the farther node although that node is not among
the visibleSize smallest-distance (visible) entries, and get_node also
returns it; so contains and get are not restricted to the bounded view. -/
theorem claim_C1_counterexample :
    ((NodeHeap.new (mkNode 0) 1).push [mkNode 1, mkNode 2]).contains (mkNode 2) = true ∧
    ((NodeHeap.new (mkNode 0) 1).push [mkNode 1, mkNode 2]).len = 1 ∧
    (((NodeHeap.new (mkNode 0) 1).push [mkNode 1, mkNode 2]).to_vec.all
      (fun n => !decide (n.id = mkId 2))) = true ∧
    (((NodeHeap.new (mkNode 0) 1).push [mkNode 1, mkNode 2]).get_node (mkId 2)).isSome = true := by
  decide

/-- C1 amended: contains(peer) is true iff the peer's identifier is
among ALL internally held entries (not only the visibleSize smallest),
and get_node(id) returns a node iff id is held internally, that node
carrying the requested identifier. -/
theorem claim_C1_amended (h : NodeHeap) (n : Node) (i : NodeId) :
    (h.contains n = true ↔ ∃ e ∈ h.heap, e.node.id = n.id) ∧
    ((h.get_node i).isSome = true ↔ ∃ e ∈ h.heap, e.node.id = i) ∧
    (∀ nd, h.get_node i = some nd → nd.id = i) := by
  refine ⟨?_, ?_, ?_⟩
  · simp [NodeHeap.contains, List.any_eq_true]
  · rw [NodeHeap.get_node]
    simp [List.find?_isSome]
  · intro nd hnd
    rw [NodeHeap.get_node, Option.map_eq_some'] at hnd
    obtain ⟨e, he, hen⟩ := hnd
    have h2 := List.find?_some he
    simp at h2
    rw [← hen]
    exact h2

/-- C10: removal (bulk remove or pop) never touches the contacted
set; after marking p contacted, removing it and re-pushing it, p is
still contacted and absent from the uncontacted view; clear resets
the contacted set. -/
theorem claim_C10 (h : NodeHeap) (p : Node) (ids : List NodeId) :
    (h.remove ids).contacted = h.contacted ∧
    (h.pop_left).2.contacted = h.contacted ∧
    (h.clear).contacted = [] ∧
    p.id ∈ (((h.mark_contacted p).remove [p.id]).push [p]).contacted ∧
    ∀ n ∈ (((h.mark_contacted p).remove [p.id]).push [p]).get_uncontacted, n.id ≠ p.id := by
  have hmem : p.id ∈ (((h.mark_contacted p).remove [p.id]).push [p]).contacted := by
    rw [push_contacted, remove_contacted]
    exact mark_contacted_mem h p
  refine ⟨remove_contacted h ids, pop_left_contacted h, rfl, hmem, ?_⟩
  intro n hn
  have h2 := mem_get_uncontacted _ n hn
  exact (h2 p.id hmem).symm

/-- C7: re-adding an already-active peer to a bucket returns true,
keeps the active count, leaves the replacement map untouched and moves
the (updated) peer to the most-recent end; pushing an id already in a
heap leaves the heap unchanged (so actual_size is unchanged). -/
theorem claim_C7 (b : KBucket) (n : Node) (h : NodeHeap) (m : Node)
    (hnd : (keysOf b.nodes).Nodup)
    (hb : imContains b.nodes n.id = true)
    (hh : h.contains m = true) :
    (b.add_node n).2 = true ∧
    (b.add_node n).1.nodes.length = b.nodes.length ∧
    (b.add_node n).1.replacement_nodes = b.replacement_nodes ∧
    (b.add_node n).1.nodes = imShiftRemove b.nodes n.id ++ [(n.id, n)] ∧
    h.push [m] = h ∧
    (h.push [m]).actual_size = h.actual_size := by
  have hstep : b.add_node n =
      ({ b with nodes := imInsert (imShiftRemove b.nodes n.id) n.id n }, true) := by
    rw [KBucket.add_node]
    simp [hb]
  have hins : imInsert (imShiftRemove b.nodes n.id) n.id n =
      imShiftRemove b.nodes n.id ++ [(n.id, n)] :=
    imInsert_of_not_contains _ _ _ (imContains_imShiftRemove_self _ _)
  have hpush := push_of_contains h m hh
  refine ⟨by rw [hstep], ?_, by rw [hstep], by rw [hstep]; exact hins, hpush, by rw [hpush]⟩
  rw [hstep]
  simp only
  rw [hins, List.length_append]
  have h3 := length_imShiftRemove_add_one b.nodes n.id hnd ((imContains_iff _ _).mp hb)
  simp only [List.length_cons, List.length_nil]
  omega

/-- Witness for C7: a bucket holding the id-1 peer, re-adding it with
a fresh address, and a heap already holding the id-1 peer. -/
theorem claim_C7_witness :
    ((KBucket.mk 0 100 [(mkId 1, mkNode 1)] [] 2 2).add_node ⟨mkId 1, some 7, some 9⟩).2 = true ∧
    (NodeHeap.mk (mkNode 0) [HeapEntry.mk (mkId 1) (mkNode 1)] [] 4).push [⟨mkId 1, some 3, none⟩] =
      NodeHeap.mk (mkNode 0) [HeapEntry.mk (mkId 1) (mkNode 1)] [] 4 := by
  have hc := claim_C7 (KBucket.mk 0 100 [(mkId 1, mkNode 1)] [] 2 2) ⟨mkId 1, some 7, some 9⟩
    (NodeHeap.mk (mkNode 0) [HeapEntry.mk (mkId 1) (mkNode 1)] [] 4) ⟨mkId 1, some 3, none⟩
    (by decide) (by decide) (by decide)
  exact ⟨hc.1, hc.2.2.2.2.1⟩

/-- C6: pop_left returns none iff the internal collection is empty;
otherwise it removes and returns a node whose XOR distance to the
reference identifier is minimal among all internally held entries, and
an immediately following pop returns a node at no smaller distance. -/
theorem claim_C6 (h : NodeHeap) (hwf : HeapWf h) :
    ((h.pop_left).1 = none ↔ h.heap = []) ∧
    (∀ n h2, h.pop_left = (some n, h2) →
      (∀ e ∈ h.heap, bytesCompare (h.node.id.distance n.id).bytes e.distance.bytes ≠ Ordering.gt) ∧
      h2.heap.length + 1 = h.heap.length ∧
      (∀ e ∈ h2.heap, e ∈ h.heap) ∧
      h2.node = h.node ∧
      (∀ n2 h3, h2.pop_left = (some n2, h3) →
        bytesCompare (h.node.id.distance n.id).bytes (h.node.id.distance n2.id).bytes ≠
          Ordering.gt)) := by
  constructor
  · rw [NodeHeap.pop_left]
    rcases hE : extractMin h.heap with _ | ⟨m, r⟩
    · simpa using (extractMin_eq_none h.heap).mp hE
    · simp only
      constructor
      · intro hc
        exact absurd hc (by simp)
      · intro hc
        rw [hc] at hE
        simp [extractMin] at hE
  · intro n h2 hpop
    rw [NodeHeap.pop_left] at hpop
    rcases hE : extractMin h.heap with _ | ⟨m, r⟩ <;> rw [hE] at hpop
    · simp at hpop
    · simp only [Prod.mk.injEq, Option.some.injEq] at hpop
      obtain ⟨hn, hh2⟩ := hpop
      obtain ⟨hm, hr, hlen, hmin⟩ := extractMin_spec h.heap m r hE
      have hdist : m.distance = h.node.id.distance n.id := by
        rw [← hn]
        exact hwf m hm
      refine ⟨?_, ?_, ?_, ?_, ?_⟩
      · intro e he
        rw [← hdist]
        exact hmin e he
      · rw [← hh2]
        exact hlen
      · intro e he
        rw [← hh2] at he
        exact hr e he
      · rw [← hh2]
      · intro n2 h3 hpop2
        rw [NodeHeap.pop_left] at hpop2
        rcases hE2 : extractMin h2.heap with _ | ⟨m2, r2⟩ <;> rw [hE2] at hpop2
        · simp at hpop2
        · simp only [Prod.mk.injEq, Option.some.injEq] at hpop2
          obtain ⟨hn2, _⟩ := hpop2
          obtain ⟨hm2, _, _, _⟩ := extractMin_spec h2.heap m2 r2 hE2
          have hmem2 : m2 ∈ h.heap := by
            rw [← hh2] at hm2
            exact hr m2 hm2
          have hdist2 : m2.distance = h.node.id.distance n2.id := by
            rw [← hn2]
            exact hwf m2 hmem2
          rw [← hdist, ← hdist2]
          exact hmin m2 hmem2

/-- Witness for C6 on a concrete two-node heap. -/
theorem claim_C6_witness :
    (((NodeHeap.new (mkNode 0) 3).push [mkNode 1, mkNode 2]).pop_left.1 = none ↔
      ((NodeHeap.new (mkNode 0) 3).push [mkNode 1, mkNode 2]).heap = []) :=
  (claim_C6 ((NodeHeap.new (mkNode 0) 3).push [mkNode 1, mkNode 2]) (by decide)).1

/-! Closed-form behavior of repeated insertion into a bucket. -/

theorem imContains_append (l1 l2 : IMap) (k : NodeId) :
    imContains (l1 ++ l2) k = (imContains l1 k || imContains l2 k) := by
  simp [imContains, List.any_append]

theorem add_all_fresh (ns : List Node) : ∀ b : KBucket,
    (∀ n ∈ ns, imContains b.nodes n.id = false) →
    (ns.map Node.id).Nodup →
    b.nodes.length + ns.length ≤ b.ksize →
    b.add_all ns = ({ b with nodes := b.nodes ++ pairsOf ns }, List.replicate ns.length true) := by
  induction ns with
  | nil =>
    intro b _ _ _
    simp [KBucket.add_all, pairsOf]
  | cons n ns ih =>
    intro b hfresh hnd hlen
    have hc : imContains b.nodes n.id = false := hfresh n (by simp)
    have hlt : b.nodes.length < b.ksize := by
      simp only [List.length_cons] at hlen
      omega
    have hstep : b.add_node n = ({ b with nodes := b.nodes ++ [(n.id, n)] }, true) := by
      rw [KBucket.add_node]
      simp [hc, hlt, imInsert_of_not_contains _ _ _ hc]
    rw [List.map_cons, List.nodup_cons] at hnd
    have hrec := ih { b with nodes := b.nodes ++ [(n.id, n)] }
      (by
        intro m hm
        rw [imContains_append]
        simp only [Bool.or_eq_false_iff]
        refine ⟨hfresh m (List.mem_cons_of_mem _ hm), ?_⟩
        rw [imContains_eq_false_iff]
        simp only [keysOf, List.map_cons, List.map_nil, List.mem_singleton]
        intro hq
        exact hnd.1 (hq ▸ List.mem_map_of_mem Node.id hm))
      hnd.2
      (by
        simp only [List.length_append, List.length_cons] at hlen ⊢
        simp only [List.length_nil]
        omega)
    simp only [KBucket.add_all, hstep, hrec]
    simp [pairsOf, List.replicate_succ]

theorem add_all_replacement (ns : List Node) : ∀ b : KBucket,
    (∀ n ∈ ns, imContains b.nodes n.id = false ∧ imContains b.replacement_nodes n.id = false) →
    (ns.map Node.id).Nodup →
    b.ksize ≤ b.nodes.length →
    b.replacement_nodes.length + ns.length ≤ b.max_replacement_nodes →
    b.add_all ns = ({ b with replacement_nodes := b.replacement_nodes ++ pairsOf ns },
                    List.replicate ns.length false) := by
  induction ns with
  | nil =>
    intro b _ _ _ _
    simp [KBucket.add_all, pairsOf]
  | cons n ns ih =>
    intro b hfresh hnd hk hlen
    have hc := (hfresh n (by simp)).1
    have hcr := (hfresh n (by simp)).2
    have hnlt : ¬ b.nodes.length < b.ksize := by omega
    have hsr : imShiftRemove b.replacement_nodes n.id = b.replacement_nodes :=
      imShiftRemove_of_not_mem _ _ ((imContains_eq_false_iff _ _).mp hcr)
    have hins : imInsert b.replacement_nodes n.id n = b.replacement_nodes ++ [(n.id, n)] :=
      imInsert_of_not_contains _ _ _ hcr
    have htrim : trimFront (b.replacement_nodes ++ [(n.id, n)]) b.max_replacement_nodes =
        b.replacement_nodes ++ [(n.id, n)] := by
      apply trimFront_of_le
      simp only [List.length_append, List.length_cons, List.length_nil] at hlen ⊢
      omega
    have hstep : b.add_node n =
        ({ b with replacement_nodes := b.replacement_nodes ++ [(n.id, n)] }, false) := by
      rw [KBucket.add_node]
      simp [hc, hnlt, hsr, hins, htrim]
    rw [List.map_cons, List.nodup_cons] at hnd
    have hrec := ih { b with replacement_nodes := b.replacement_nodes ++ [(n.id, n)] }
      (by
        intro m hm
        refine ⟨(hfresh m (List.mem_cons_of_mem _ hm)).1, ?_⟩
        rw [imContains_append]
        simp only [Bool.or_eq_false_iff]
        refine ⟨(hfresh m (List.mem_cons_of_mem _ hm)).2, ?_⟩
        rw [imContains_eq_false_iff]
        simp only [keysOf, List.map_cons, List.map_nil, List.mem_singleton]
        intro hq
        exact hnd.1 (hq ▸ List.mem_map_of_mem Node.id hm))
      hnd.2
      hk
      (by
        simp only [List.length_append, List.length_cons] at hlen ⊢
        simp only [List.length_nil]
        omega)
    simp only [KBucket.add_all, hstep, hrec]
    simp [pairsOf, List.replicate_succ]

theorem add_all_append (l1 : List Node) : ∀ (b : KBucket) (l2 : List Node),
    b.add_all (l1 ++ l2) =
      (((b.add_all l1).1.add_all l2).1, (b.add_all l1).2 ++ ((b.add_all l1).1.add_all l2).2) := by
  induction l1 with
  | nil => intro b l2; simp [KBucket.add_all]
  | cons n ns ih =>
    intro b l2
    simp only [List.cons_append, KBucket.add_all, List.append_eq]
    rw [ih]

/-- C3 counterexample: with k = 1 and replacement factor 0 (so the
replacement bound k*factor is 0), inserting k+1 = 2 distinct peers
leaves replacement count 0, not 1: the overflowing peer is dropped
rather than retained as a replacement candidate. -/
theorem claim_C3_counterexample :
    ((KBucket.new 0 100 1 0).add_all [mkNode 1, mkNode 2]).2 = [true, false] ∧
    ((KBucket.new 0 100 1 0).add_all [mkNode 1, mkNode 2]).1.replacement_nodes.length ≠ 1 := by
  decide

/-- C3 amended: for every k ≥ 1 and replacement factor ≥ 1, inserting
k+1 distinct peers into a fresh bucket returns true for the first k
and false for the last, and leaves k active entries plus exactly the
last peer as the single replacement entry. -/
theorem claim_C3_amended (low high k f : Nat) (ns : List Node) (m : Node)
    (hk : 1 ≤ k) (hf : 1 ≤ f) (hlen : ns.length = k)
    (hnd : ((ns ++ [m]).map Node.id).Nodup) :
    ((KBucket.new low high k f).add_all (ns ++ [m])).2 = List.replicate k true ++ [false] ∧
    ((KBucket.new low high k f).add_all (ns ++ [m])).1.nodes.length = k ∧
    ((KBucket.new low high k f).add_all (ns ++ [m])).1.replacement_nodes = [(m.id, m)] := by
  rw [List.map_append, List.nodup_append] at hnd
  obtain ⟨hnd1, _, hdisj⟩ := hnd
  have h1 := add_all_fresh ns (KBucket.new low high k f)
    (by intro p _; rw [imContains_eq_false_iff]; simp [KBucket.new, keysOf])
    hnd1
    (by simp [KBucket.new, hlen])
  have hsnd : ((KBucket.new low high k f).add_all ns).2 = List.replicate k true := by
    rw [h1, hlen]
  have hnodes1 : ((KBucket.new low high k f).add_all ns).1.nodes = pairsOf ns := by
    rw [h1]
    exact List.nil_append _
  have hrepl1 : ((KBucket.new low high k f).add_all ns).1.replacement_nodes = [] := by
    rw [h1]
    rfl
  have hks : ((KBucket.new low high k f).add_all ns).1.ksize = k := by
    rw [h1]
    rfl
  have hmax : ((KBucket.new low high k f).add_all ns).1.max_replacement_nodes = k * f := by
    rw [h1]
    rfl
  have h2 := add_all_replacement [m] ((KBucket.new low high k f).add_all ns).1
    (by
      intro p hp
      rw [List.mem_singleton] at hp
      subst hp
      constructor
      · rw [imContains_eq_false_iff, hnodes1, keysOf_pairsOf]
        intro hmem
        exact hdisj hmem (by simp)
      · rw [imContains_eq_false_iff, hrepl1]
        simp [keysOf])
    (by simp)
    (by
      rw [hks, hnodes1]
      simp [pairsOf, hlen])
    (by
      rw [hrepl1, hmax]
      simp only [List.length_nil, List.length_singleton]
      calc 0 + 1 ≤ 1 * 1 := by omega
      _ ≤ k * f := Nat.mul_le_mul hk hf)
  rw [add_all_append, h2, hsnd]
  refine ⟨rfl, ?_, ?_⟩
  · show (((KBucket.new low high k f).add_all ns).1.nodes).length = k
    rw [hnodes1]
    simp [pairsOf, hlen]
  · show ((KBucket.new low high k f).add_all ns).1.replacement_nodes ++ pairsOf [m] = [(m.id, m)]
    rw [hrepl1]
    simp [pairsOf]

/-- Witness for C3 amended at k = 1, replacement factor 1. -/
theorem claim_C3_witness :
    ((KBucket.new 0 100 1 1).add_all ([mkNode 1] ++ [mkNode 2])).2 =
      List.replicate 1 true ++ [false] ∧
    ((KBucket.new 0 100 1 1).add_all ([mkNode 1] ++ [mkNode 2])).1.nodes.length = 1 ∧
    ((KBucket.new 0 100 1 1).add_all ([mkNode 1] ++ [mkNode 2])).1.replacement_nodes =
      [((mkNode 2).id, mkNode 2)] :=
  claim_C3_amended 0 100 1 1 [mkNode 1] (mkNode 2) (by decide) (by decide) (by decide) (by decide)

/-! Evaluation lemmas for the bucket operations. -/

theorem remove_node_eq (b : KBucket) (p : Node) :
    b.remove_node p =
      if imContains b.nodes p.id then
        match imShiftRemove b.replacement_nodes p.id with
        | [] => { b with nodes := imShiftRemove b.nodes p.id,
                         replacement_nodes := imShiftRemove b.replacement_nodes p.id }
        | q :: rest => { b with nodes := imInsert (imShiftRemove b.nodes p.id) q.1 q.2,
                                replacement_nodes := rest }
      else { b with replacement_nodes := imShiftRemove b.replacement_nodes p.id } := by
  rw [KBucket.remove_node]

theorem add_node_eq_active (b : KBucket) (n : Node) (hc : imContains b.nodes n.id = true) :
    b.add_node n = ({ b with nodes := imShiftRemove b.nodes n.id ++ [(n.id, n)] }, true) := by
  rw [KBucket.add_node]
  simp [hc, imInsert_of_not_contains _ _ _ (imContains_imShiftRemove_self _ _)]

theorem add_node_eq_fresh (b : KBucket) (n : Node) (hc : imContains b.nodes n.id = false)
    (hlt : b.nodes.length < b.ksize) :
    b.add_node n = ({ b with nodes := b.nodes ++ [(n.id, n)] }, true) := by
  rw [KBucket.add_node]
  simp [hc, hlt, imInsert_of_not_contains _ _ _ hc]

theorem add_node_eq_full (b : KBucket) (n : Node) (hc : imContains b.nodes n.id = false)
    (hge : ¬ b.nodes.length < b.ksize) :
    b.add_node n =
      ({ b with replacement_nodes :=
          (trimFront (imShiftRemove b.replacement_nodes n.id ++ [(n.id, n)])
            b.max_replacement_nodes) }, false) := by
  rw [KBucket.add_node]
  simp [hc, hge, imInsert_of_not_contains _ _ _ (imContains_imShiftRemove_self _ _)]

/-- C4: remove_node drops the peer from the replacement map
unconditionally; when the peer was active it is removed and the
oldest (front) replacement entry, if any, is promoted to the active
map's most-recent end; a peer present nowhere leaves the bucket
unchanged. -/
theorem claim_C4 (b : KBucket) (p : Node) (hwf : b.Wf) :
    (imContains b.nodes p.id = false →
      b.remove_node p = { b with replacement_nodes := imShiftRemove b.replacement_nodes p.id }) ∧
    (imContains b.nodes p.id = false → imContains b.replacement_nodes p.id = false →
      b.remove_node p = b) ∧
    (imContains b.nodes p.id = true →
      b.remove_node p =
        match imShiftRemove b.replacement_nodes p.id with
        | [] => { b with nodes := imShiftRemove b.nodes p.id, replacement_nodes := [] }
        | q :: rest =>
          { b with nodes := imShiftRemove b.nodes p.id ++ [q], replacement_nodes := rest }) := by
  obtain ⟨_, _, _, _, hdisj, _, _⟩ := hwf
  refine ⟨?_, ?_, ?_⟩
  · intro hno
    rw [remove_node_eq, if_neg]
    simp [hno]
  · intro hno hnor
    rw [remove_node_eq, if_neg]
    · rw [imShiftRemove_of_not_mem _ _ ((imContains_eq_false_iff _ _).mp hnor)]
    · simp [hno]
  · intro hyes
    rw [remove_node_eq, if_pos hyes]
    rcases hq : imShiftRemove b.replacement_nodes p.id with _ | ⟨q, rest⟩
    · rfl
    · have hqmem : q ∈ b.replacement_nodes := by
        apply List.mem_of_mem_filter (p := fun pr => !decide (pr.1 = p.id))
        rw [← imShiftRemove, hq]
        exact List.mem_cons_self _ _
      have hqk : q.1 ∈ keysOf b.replacement_nodes := (mem_keysOf _ _).mpr ⟨q, hqmem, rfl⟩
      have hqn : q.1 ∉ keysOf b.nodes := fun hin => hdisj q.1 hin hqk
      have hqn2 : imContains (imShiftRemove b.nodes p.id) q.1 = false := by
        rw [imContains_eq_false_iff, mem_keysOf_imShiftRemove]
        intro hx
        exact hqn hx.1
      show KBucket.mk b.rstart b.rend (imInsert (imShiftRemove b.nodes p.id) q.1 q.2) rest
          b.ksize b.max_replacement_nodes =
        KBucket.mk b.rstart b.rend (imShiftRemove b.nodes p.id ++ [q]) rest
          b.ksize b.max_replacement_nodes
      rw [imInsert_of_not_contains _ _ _ hqn2]

/-- Witness for C4: the spec's promotion scenario with k = 2, three
peers (the third a replacement), removing the first active peer. -/
theorem claim_C4_witness :
    (KBucket.mk 0 200 [(mkId 1, mkNode 1), (mkId 2, mkNode 2)] [(mkId 3, mkNode 3)] 2 10).remove_node
        (mkNode 1) =
      KBucket.mk 0 200 [(mkId 2, mkNode 2), (mkId 3, mkNode 3)] [] 2 10 := by
  have hc := (claim_C4
    (KBucket.mk 0 200 [(mkId 1, mkNode 1), (mkId 2, mkNode 2)] [(mkId 3, mkNode 3)] 2 10)
    (mkNode 1) (by decide)).2.2 (by decide)
  rw [hc]
  decide

/-! Preservation of the strengthened bucket invariant. -/

theorem strongInv_new (low high k f : Nat) : (KBucket.new low high k f).StrongInv := by
  refine ⟨⟨?_, ?_, ?_, ?_, ?_, ?_, ?_⟩, ?_⟩ <;> simp [KBucket.new, keysOf]

theorem strongInv_add (b : KBucket) (n : Node) (h : b.StrongInv) :
    ((b.add_node n).1).StrongInv := by
  obtain ⟨⟨hlen, hrlen, hndN, hndR, hdisj, hkN, hkR⟩, hfull⟩ := h
  by_cases hc : imContains b.nodes n.id = true
  · rw [add_node_eq_active b n hc]
    have hcut := length_imShiftRemove_add_one b.nodes n.id hndN ((imContains_iff _ _).mp hc)
    refine ⟨⟨?_, hrlen, ?_, hndR, ?_, ?_, hkR⟩, ?_⟩
    · show (imShiftRemove b.nodes n.id ++ [(n.id, n)]).length ≤ b.ksize
      rw [List.length_append]
      simp only [List.length_cons, List.length_nil]
      omega
    · show (keysOf (imShiftRemove b.nodes n.id ++ [(n.id, n)])).Nodup
      rw [keysOf_append]
      refine List.Nodup.append (nodup_keysOf_imShiftRemove _ _ hndN) (by simp [keysOf]) ?_
      intro x hx hx2
      simp only [keysOf, List.map_cons, List.map_nil, List.mem_singleton] at hx2
      subst hx2
      exact ((mem_keysOf_imShiftRemove _ _ _).mp hx).2 rfl
    · show ∀ x ∈ keysOf (imShiftRemove b.nodes n.id ++ [(n.id, n)]),
        x ∉ keysOf b.replacement_nodes
      intro x hx
      rw [keysOf_append] at hx
      rcases List.mem_append.mp hx with hx | hx
      · exact hdisj x ((mem_keysOf_imShiftRemove _ _ _).mp hx).1
      · simp only [keysOf, List.map_cons, List.map_nil, List.mem_singleton] at hx
        subst hx
        exact hdisj n.id ((imContains_iff _ _).mp hc)
    · show ∀ pr ∈ imShiftRemove b.nodes n.id ++ [(n.id, n)], pr.1 = pr.2.id
      intro pr hpr
      rcases List.mem_append.mp hpr with hpr | hpr
      · exact hkN pr (List.mem_of_mem_filter hpr)
      · simp only [List.mem_singleton] at hpr
        subst hpr
        rfl
    · show b.replacement_nodes ≠ [] →
        b.ksize ≤ (imShiftRemove b.nodes n.id ++ [(n.id, n)]).length
      intro hne
      have hk := hfull hne
      rw [List.length_append]
      simp only [List.length_cons, List.length_nil]
      omega
  · have hc2 : imContains b.nodes n.id = false := by simpa using hc
    by_cases hlt : b.nodes.length < b.ksize
    · rw [add_node_eq_fresh b n hc2 hlt]
      have hre : b.replacement_nodes = [] := by
        by_contra hne
        exact absurd (hfull hne) (by omega)
      refine ⟨⟨?_, hrlen, ?_, hndR, ?_, ?_, hkR⟩, ?_⟩
      · show (b.nodes ++ [(n.id, n)]).length ≤ b.ksize
        rw [List.length_append]
        simp only [List.length_cons, List.length_nil]
        omega
      · show (keysOf (b.nodes ++ [(n.id, n)])).Nodup
        rw [keysOf_append]
        refine List.Nodup.append hndN (by simp [keysOf]) ?_
        intro x hx hx2
        simp only [keysOf, List.map_cons, List.map_nil, List.mem_singleton] at hx2
        subst hx2
        exact (imContains_eq_false_iff _ _).mp hc2 hx
      · show ∀ x ∈ keysOf (b.nodes ++ [(n.id, n)]), x ∉ keysOf b.replacement_nodes
        intro x _
        rw [hre]
        simp [keysOf]
      · show ∀ pr ∈ b.nodes ++ [(n.id, n)], pr.1 = pr.2.id
        intro pr hpr
        rcases List.mem_append.mp hpr with hpr | hpr
        · exact hkN pr hpr
        · simp only [List.mem_singleton] at hpr
          subst hpr
          rfl
      · show b.replacement_nodes ≠ [] → b.ksize ≤ (b.nodes ++ [(n.id, n)]).length
        intro hne
        rw [hre] at hne
        exact absurd rfl hne
    · rw [add_node_eq_full b n hc2 hlt]
      have hsub : ∀ x ∈ trimFront (imShiftRemove b.replacement_nodes n.id ++ [(n.id, n)])
          b.max_replacement_nodes,
          x ∈ imShiftRemove b.replacement_nodes n.id ++ [(n.id, n)] := by
        intro x hx
        rw [trimFront_eq_drop] at hx
        exact List.mem_of_mem_drop hx
      refine ⟨⟨hlen, ?_, hndN, ?_, ?_, hkN, ?_⟩, ?_⟩
      · show (trimFront (imShiftRemove b.replacement_nodes n.id ++ [(n.id, n)])
            b.max_replacement_nodes).length ≤ b.max_replacement_nodes
        rw [trimFront_length]
        exact Nat.min_le_right _ _
      · show (keysOf (trimFront (imShiftRemove b.replacement_nodes n.id ++ [(n.id, n)])
            b.max_replacement_nodes)).Nodup
        rw [trimFront_eq_drop]
        have hnd2 : (keysOf (imShiftRemove b.replacement_nodes n.id ++ [(n.id, n)])).Nodup := by
          rw [keysOf_append]
          refine List.Nodup.append (nodup_keysOf_imShiftRemove _ _ hndR) (by simp [keysOf]) ?_
          intro x hx hx2
          simp only [keysOf, List.map_cons, List.map_nil, List.mem_singleton] at hx2
          subst hx2
          exact ((mem_keysOf_imShiftRemove _ _ _).mp hx).2 rfl
        have hsubl : (keysOf ((imShiftRemove b.replacement_nodes n.id ++ [(n.id, n)]).drop
            ((imShiftRemove b.replacement_nodes n.id ++ [(n.id, n)]).length -
              b.max_replacement_nodes))).Sublist
            (keysOf (imShiftRemove b.replacement_nodes n.id ++ [(n.id, n)])) := by
          unfold keysOf
          exact (List.drop_sublist _ _).map Prod.fst
        exact hnd2.sublist hsubl
      · show ∀ x ∈ keysOf b.nodes,
          x ∉ keysOf (trimFront (imShiftRemove b.replacement_nodes n.id ++ [(n.id, n)])
            b.max_replacement_nodes)
        intro x hx hx2
        rw [mem_keysOf] at hx2
        obtain ⟨pr, hpr, hprx⟩ := hx2
        have hpr2 := hsub pr hpr
        rcases List.mem_append.mp hpr2 with hpr2 | hpr2
        · have hxr : x ∈ keysOf (imShiftRemove b.replacement_nodes n.id) :=
            (mem_keysOf _ _).mpr ⟨pr, hpr2, hprx⟩
          exact hdisj x hx ((mem_keysOf_imShiftRemove _ _ _).mp hxr).1
        · simp only [List.mem_singleton] at hpr2
          subst hpr2
          subst hprx
          exact (imContains_eq_false_iff _ _).mp hc2 hx
      · show ∀ pr ∈ trimFront (imShiftRemove b.replacement_nodes n.id ++ [(n.id, n)])
            b.max_replacement_nodes, pr.1 = pr.2.id
        intro pr hpr
        have hpr2 := hsub pr hpr
        rcases List.mem_append.mp hpr2 with hpr2 | hpr2
        · exact hkR pr (List.mem_of_mem_filter hpr2)
        · simp only [List.mem_singleton] at hpr2
          subst hpr2
          rfl
      · show trimFront (imShiftRemove b.replacement_nodes n.id ++ [(n.id, n)])
            b.max_replacement_nodes ≠ [] → b.ksize ≤ b.nodes.length
        intro _
        omega

theorem strongInv_del (b : KBucket) (p : Node) (h : b.StrongInv) :
    (b.remove_node p).StrongInv := by
  obtain ⟨⟨hlen, hrlen, hndN, hndR, hdisj, hkN, hkR⟩, hfull⟩ := h
  rw [remove_node_eq]
  by_cases hc : imContains b.nodes p.id = true
  · rw [if_pos hc]
    rcases hq : imShiftRemove b.replacement_nodes p.id with _ | ⟨q, rest⟩
    · refine ⟨⟨?_, ?_, ?_, ?_, ?_, ?_, ?_⟩, ?_⟩
      · show (imShiftRemove b.nodes p.id).length ≤ b.ksize
        exact Nat.le_trans (length_imShiftRemove_le _ _) hlen
      · show (List.length ([] : IMap)) ≤ b.max_replacement_nodes
        simp
      · exact nodup_keysOf_imShiftRemove _ _ hndN
      · show (keysOf ([] : IMap)).Nodup
        simp [keysOf]
      · show ∀ x ∈ keysOf (imShiftRemove b.nodes p.id), x ∉ keysOf ([] : IMap)
        intro x _
        simp [keysOf]
      · show ∀ pr ∈ imShiftRemove b.nodes p.id, pr.1 = pr.2.id
        intro pr hpr
        exact hkN pr (List.mem_of_mem_filter hpr)
      · show ∀ pr ∈ ([] : IMap), pr.1 = pr.2.id
        intro pr hpr
        exact absurd hpr (by simp)
      · show ([] : IMap) ≠ [] → b.ksize ≤ (imShiftRemove b.nodes p.id).length
        intro hne
        exact absurd rfl hne
    · have hcut := length_imShiftRemove_add_one b.nodes p.id hndN ((imContains_iff _ _).mp hc)
      have hqmem : q ∈ b.replacement_nodes := by
        apply List.mem_of_mem_filter (p := fun pr => !decide (pr.1 = p.id))
        rw [← imShiftRemove, hq]
        exact List.mem_cons_self _ _
      have hqk : q.1 ∈ keysOf b.replacement_nodes := (mem_keysOf _ _).mpr ⟨q, hqmem, rfl⟩
      have hqn : q.1 ∉ keysOf b.nodes := fun hin => hdisj q.1 hin hqk
      have hqn2 : imContains (imShiftRemove b.nodes p.id) q.1 = false := by
        rw [imContains_eq_false_iff, mem_keysOf_imShiftRemove]
        intro hx
        exact hqn hx.1
      have hndq : (keysOf (imShiftRemove b.replacement_nodes p.id)).Nodup :=
        nodup_keysOf_imShiftRemove _ _ hndR
      rw [hq, keysOf_cons, List.nodup_cons] at hndq
      have hrestlen : rest.length + 1 ≤ b.replacement_nodes.length := by
        have h1 : (imShiftRemove b.replacement_nodes p.id).length ≤ b.replacement_nodes.length :=
          length_imShiftRemove_le _ _
        rw [hq] at h1
        simpa using h1
      have hrest_sub : ∀ x ∈ rest, x ∈ b.replacement_nodes := by
        intro x hx
        apply List.mem_of_mem_filter (p := fun pr => !decide (pr.1 = p.id))
        rw [← imShiftRemove, hq]
        exact List.mem_cons_of_mem _ hx
      have hinsq : imInsert (imShiftRemove b.nodes p.id) q.1 q.2 =
          imShiftRemove b.nodes p.id ++ [(q.1, q.2)] :=
        imInsert_of_not_contains _ _ _ hqn2
      refine ⟨⟨?_, ?_, ?_, hndq.2, ?_, ?_, ?_⟩, ?_⟩
      · show (imInsert (imShiftRemove b.nodes p.id) q.1 q.2).length ≤ b.ksize
        rw [hinsq, List.length_append]
        simp only [List.length_cons, List.length_nil]
        omega
      · show rest.length ≤ b.max_replacement_nodes
        omega
      · show (keysOf (imInsert (imShiftRemove b.nodes p.id) q.1 q.2)).Nodup
        rw [hinsq, keysOf_append]
        refine List.Nodup.append (nodup_keysOf_imShiftRemove _ _ hndN) (by simp [keysOf]) ?_
        intro x hx hx2
        simp only [keysOf, List.map_cons, List.map_nil, List.mem_singleton] at hx2
        subst hx2
        exact hqn ((mem_keysOf_imShiftRemove _ _ _).mp hx).1
      · show ∀ x ∈ keysOf (imInsert (imShiftRemove b.nodes p.id) q.1 q.2), x ∉ keysOf rest
        intro x hx hx2
        rw [hinsq, keysOf_append] at hx
        have hx2r : x ∈ keysOf b.replacement_nodes := by
          rw [mem_keysOf] at hx2 ⊢
          obtain ⟨pr, hpr, hprx⟩ := hx2
          exact ⟨pr, hrest_sub pr hpr, hprx⟩
        rcases List.mem_append.mp hx with hx | hx
        · exact hdisj x ((mem_keysOf_imShiftRemove _ _ _).mp hx).1 hx2r
        · simp only [keysOf, List.map_cons, List.map_nil, List.mem_singleton] at hx
          subst hx
          exact hndq.1 hx2
      · show ∀ pr ∈ imInsert (imShiftRemove b.nodes p.id) q.1 q.2, pr.1 = pr.2.id
        intro pr hpr
        rw [hinsq] at hpr
        rcases List.mem_append.mp hpr with hpr | hpr
        · exact hkN pr (List.mem_of_mem_filter hpr)
        · simp only [List.mem_singleton] at hpr
          subst hpr
          exact hkR q hqmem
      · show ∀ pr ∈ rest, pr.1 = pr.2.id
        intro pr hpr
        exact hkR pr (hrest_sub pr hpr)
      · show rest ≠ [] → b.ksize ≤ (imInsert (imShiftRemove b.nodes p.id) q.1 q.2).length
        intro _
        have hne : b.replacement_nodes ≠ [] := by
          intro hrnil
          rw [hrnil] at hq
          simp [imShiftRemove] at hq
        have hk := hfull hne
        rw [hinsq, List.length_append]
        simp only [List.length_cons, List.length_nil]
        omega
  · rw [if_neg hc]
    refine ⟨⟨hlen, ?_, hndN, nodup_keysOf_imShiftRemove _ _ hndR, ?_, hkN, ?_⟩, ?_⟩
    · show (imShiftRemove b.replacement_nodes p.id).length ≤ b.max_replacement_nodes
      exact Nat.le_trans (length_imShiftRemove_le _ _) hrlen
    · show ∀ x ∈ keysOf b.nodes, x ∉ keysOf (imShiftRemove b.replacement_nodes p.id)
      intro x hx hx2
      exact hdisj x hx ((mem_keysOf_imShiftRemove _ _ _).mp hx2).1
    · show ∀ pr ∈ imShiftRemove b.replacement_nodes p.id, pr.1 = pr.2.id
      intro pr hpr
      exact hkR pr (List.mem_of_mem_filter hpr)
    · show imShiftRemove b.replacement_nodes p.id ≠ [] → b.ksize ≤ b.nodes.length
      intro hne
      apply hfull
      intro hrnil
      rw [hrnil] at hne
      simp [imShiftRemove] at hne

theorem strongInv_applyOps (ops : List BucketOp) : ∀ b : KBucket,
    b.StrongInv → (applyOps b ops).StrongInv := by
  induction ops with
  | nil => intro b h; exact h
  | cons op ops ih =>
    intro b h
    cases op with
    | add n => exact ih _ (strongInv_add b n h)
    | del n => exact ih _ (strongInv_del b n h)

/-- C5: any sequence of insertions and removals starting from a fresh
bucket keeps the active map within k entries and the replacement map
within its bound - the trim evicting from the front, i.e.
oldest-inserted first - and never holds an identifier in the active
and replacement maps simultaneously. -/
theorem claim_C5 (low high k f : Nat) (ops : List BucketOp) :
    (applyOps (KBucket.new low high k f) ops).nodes.length ≤
      (applyOps (KBucket.new low high k f) ops).ksize ∧
    (applyOps (KBucket.new low high k f) ops).replacement_nodes.length ≤
      (applyOps (KBucket.new low high k f) ops).max_replacement_nodes ∧
    (∀ i ∈ keysOf (applyOps (KBucket.new low high k f) ops).nodes,
      i ∉ keysOf (applyOps (KBucket.new low high k f) ops).replacement_nodes) ∧
    (∀ (l : IMap) (cap : Nat), trimFront l cap = l.drop (l.length - cap)) := by
  obtain ⟨⟨h1, h2, _, _, h5, _, _⟩, _⟩ :=
    strongInv_applyOps ops (KBucket.new low high k f) (strongInv_new low high k f)
  exact ⟨h1, h2, h5, fun l cap => trimFront_eq_drop l cap⟩

/-! Helper lemmas for the depth computation. -/

theorem spAux_single (s : List Nat) : ∀ (t : List Nat) (i : Nat),
    (∀ j, t.get? j = s.get? (i + j)) → spAux [s] t i = t := by
  intro t
  induction t with
  | nil => intro i _; rfl
  | cons c rest ih =>
    intro i hj
    rw [spAux]
    have h0 : s.get? i = some c := by
      have h1 := hj 0
      simpa using h1.symm
    rw [if_pos]
    · have h2 := ih (i + 1) (fun j => by
        have h3 := hj (j + 1)
        rw [show i + (j + 1) = (i + 1) + j by omega] at h3
        exact h3)
      rw [h2]
    · rw [allNthEq]
      rw [List.get?_eq_getElem?] at h0
      simp [h0]

theorem length_bits_flatten (l : List Nat) :
    ((l.map byteToBits).flatten).length = 8 * l.length := by
  induction l with
  | nil => rfl
  | cons b rest ih =>
    rw [List.map_cons, List.flatten_cons, List.length_append, ih]
    simp only [byteToBits, List.length_map, List.length_range, List.length_cons]
    omega

theorem length_bit_string (id : NodeId) (h : id.bytes.length = 20) :
    (node_id_to_bit_string id).length = 160 := by
  rw [node_id_to_bit_string, length_bits_flatten, h]

/-- C9: a bucket with exactly one active peer has depth 160 (the full
common prefix of a single 20-byte identifier with itself); an empty
active map gives depth 0; and depth 0 arises only from emptiness or
from two active peers whose first (most significant) bits differ. -/
theorem claim_C9 (b : KBucket) (hwfb : ∀ p ∈ b.nodes, p.2.id.bytes.length = 20) :
    (b.nodes.length = 1 → b.depth = 160) ∧
    (b.nodes = [] → b.depth = 0) ∧
    (b.depth = 0 → b.nodes = [] ∨
      ∃ p ∈ b.nodes, ∃ q ∈ b.nodes, firstBitOf p.2.id ≠ firstBitOf q.2.id) := by
  refine ⟨?_, ?_, ?_⟩
  · intro h1
    obtain ⟨pr, hpr⟩ := List.length_eq_one.mp h1
    rw [KBucket.depth, hpr]
    simp only [List.isEmpty_cons, if_false, List.map_cons, List.map_nil]
    have hsp : shared_prefix [node_id_to_bit_string pr.2.id] = node_id_to_bit_string pr.2.id := by
      rw [ shared_prefix]
      exact spAux_single _ _ 0 (fun j => by rw [Nat.zero_add])
    rw [hsp]
    exact length_bit_string pr.2.id (hwfb pr (hpr ▸ List.mem_cons_self _ _))
  · intro h2
    rw [KBucket.depth, h2]
    rfl
  · intro hd
    by_cases hnil : b.nodes = []
    · exact Or.inl hnil
    · right
      obtain ⟨pr, rest, hcons⟩ := List.exists_cons_of_ne_nil hnil
      have hpr160 : (node_id_to_bit_string pr.2.id).length = 160 :=
        length_bit_string pr.2.id (hwfb pr (hcons ▸ List.mem_cons_self _ _))
      rcases hfp : node_id_to_bit_string pr.2.id with _ | ⟨c, cs⟩
      · rw [hfp] at hpr160
        simp at hpr160
      · rw [KBucket.depth, hcons] at hd
        simp only [List.isEmpty_cons, if_false, List.map_cons] at hd
        rw [ shared_prefix, hfp, spAux] at hd
        by_cases hall : allNthEq
            ((c :: cs) :: rest.map (fun p => node_id_to_bit_string p.2.id)) 0 c = true
        · rw [if_pos hall] at hd
          simp at hd
        · rw [allNthEq, List.all_eq_true] at hall
          push_neg at hall
          obtain ⟨s, hs, hsneq⟩ := hall
          rcases List.mem_cons.mp hs with hs1 | hs2
          · rw [hs1] at hsneq
            simp at hsneq
          · obtain ⟨q, hq, hqs⟩ := List.mem_map.mp hs2
            refine ⟨pr, hcons ▸ List.mem_cons_self _ _, q,
              hcons ▸ List.mem_cons_of_mem _ hq, ?_⟩
            rw [firstBitOf, firstBitOf, hfp, hqs]
            intro heq
            apply hsneq
            rw [← heq]
            simp

/-- Witness for C9 on a bucket holding one 20-byte peer. -/
theorem claim_C9_witness :
    (KBucket.mk 0 200 [(mkId 1, mkNode 1)] [] 2 2).depth = 160 :=
  (claim_C9 (KBucket.mk 0 200 [(mkId 1, mkNode 1)] [] 2 2) (by decide)).1 rfl

/-! Helper lemmas for bucket splitting. -/

theorem split_fold_eq (mid : Nat) (l : List Node) : ∀ c d : KBucket,
    l.foldl
      (fun pr node =>
        if node_id_to_u128 node.id ≤ mid then ((pr.1.add_node node).1, pr.2)
        else (pr.1, (pr.2.add_node node).1))
      (c, d) =
    ((c.add_all (l.filter (fun n => decide (node_id_to_u128 n.id ≤ mid)))).1,
     (d.add_all (l.filter (fun n => !decide (node_id_to_u128 n.id ≤ mid)))).1) := by
  induction l with
  | nil => intro c d; rfl
  | cons n ns ih =>
    intro c d
    rw [List.foldl_cons]
    by_cases hn : node_id_to_u128 n.id ≤ mid
    · rw [if_pos hn, ih]
      simp [List.filter_cons, hn, KBucket.add_all]
    · rw [if_neg hn, ih]
      simp [List.filter_cons, hn, KBucket.add_all]

theorem map_id_valuesOf (l : IMap) (hk : ∀ p ∈ l, p.1 = p.2.id) :
    (valuesOf l).map Node.id = keysOf l := by
  induction l with
  | nil => rfl
  | cons p rest ih =>
    rw [valuesOf, List.map_cons, List.map_cons, keysOf_cons]
    rw [← hk p (List.mem_cons_self _ _)]
    rw [valuesOf] at ih
    rw [ih (fun q hq => hk q (List.mem_cons_of_mem _ hq))]

theorem add_all_new_closed (low high k f : Nat) (ns : List Node)
    (hnd : (ns.map Node.id).Nodup) (hlen : ns.length ≤ k + k * f) :
    ((KBucket.new low high k f).add_all ns).1 =
      KBucket.mk low high (pairsOf (ns.take k)) (pairsOf (ns.drop k)) k (k * f) := by
  by_cases hcase : ns.length ≤ k
  · have htake : ns.take k = ns := List.take_of_length_le hcase
    have hdrop : ns.drop k = [] := List.drop_eq_nil_of_le hcase
    have h1 := add_all_fresh ns (KBucket.new low high k f)
      (fun p _ => rfl)
      hnd
      (by simp [KBucket.new]; omega)
    rw [h1, htake, hdrop]
    rfl
  · push_neg at hcase
    have h1 := add_all_fresh (ns.take k) (KBucket.new low high k f)
      (fun p _ => rfl)
      (hnd.sublist ((List.take_sublist k ns).map Node.id))
      (by
        simp only [KBucket.new, List.length_nil, List.length_take]
        omega)
    have hA : ((KBucket.new low high k f).add_all (ns.take k)).1 =
        KBucket.mk low high (pairsOf (ns.take k)) [] k (k * f) := by
      rw [h1]
      rfl
    have hnsnd : ns.Nodup := hnd.of_map
    have h2 := add_all_replacement (ns.drop k) ((KBucket.new low high k f).add_all (ns.take k)).1
      (by
        intro m hm
        rw [hA]
        constructor
        · show imContains (pairsOf (ns.take k)) m.id = false
          rw [imContains_eq_false_iff, keysOf_pairsOf]
          intro hmem
          obtain ⟨x, hx, hxid⟩ := List.mem_map.mp hmem
          have hxm : x = m := List.inj_on_of_nodup_map hnd
            (List.mem_of_mem_take hx) (List.mem_of_mem_drop hm) hxid
          subst hxm
          exact (List.disjoint_take_drop hnsnd (Nat.le_refl k)) hx hm
        · show imContains ([] : IMap) m.id = false
          rfl)
      (hnd.sublist ((List.drop_sublist k ns).map Node.id))
      (by
        rw [hA]
        show k ≤ (pairsOf (ns.take k)).length
        simp only [pairsOf, List.length_map, List.length_take]
        omega)
      (by
        rw [hA]
        show List.length ([] : IMap) + (ns.drop k).length ≤ k * f
        simp only [List.length_nil, List.length_drop]
        omega)
    conv_lhs => rw [← List.take_append_drop k ns]
    rw [add_all_append, h2, hA]
    rfl

/-- C2 counterexample: splitting the reachable bucket over
[2^127, 2^128 - 1] (the right child of a full-space split) overflows
the u128 sum low + high, so the computed midpoint wraps to 2^126 - 1
instead of the exact (low + high) / 2 = 2^127 + 2^126 - 1: the left
child's upper bound and the right child's lower bound are not mid and
mid + 1 for the exact mid, and the held peer, whose magnitude 2^127
lies at or below the exact midpoint (so the claimed left child
[low, mid] contains it), ends up in the right child while the left
child stays empty. -/
theorem claim_C2_counterexample :
    ((topHalfBucket.split).1.rend ≠ (2 ^ 127 + (2 ^ 128 - 1)) / 2) ∧
    ((topHalfBucket.split).2.rstart ≠ (2 ^ 127 + (2 ^ 128 - 1)) / 2 + 1) ∧
    node_id_to_u128 topBitId ≤ (2 ^ 127 + (2 ^ 128 - 1)) / 2 ∧
    (topHalfBucket.split).1.nodes = [] ∧
    (topHalfBucket.split).1.replacement_nodes = [] ∧
    topBitId ∈ keysOf (topHalfBucket.split).2.nodes := by
  decide

/-- C2 amended: provided low + high does not overflow u128 (the sum
stays below 2^128, so the midpoint is computed by exact integer
division), split produces children covering [low, mid] and
[mid+1, high] with the same k and replacement factor, and every held
peer (iterated active then replacement) ends up in exactly the child
whose range contains its truncated 128-bit magnitude. -/
theorem claim_C2 (b : KBucket) (f : Nat)
    (hk : 0 < b.ksize)
    (hf : b.max_replacement_nodes = b.ksize * f)
    (hwf : b.Wf)
    (hov : b.rstart + b.rend < 2 ^ 128)
    (hin : ∀ n ∈ valuesOf b.nodes ++ valuesOf b.replacement_nodes, b.has_in_range n = true) :
    ((b.split).1.rstart = b.rstart ∧ (b.split).1.rend = (b.rstart + b.rend) / 2 ∧
     (b.split).2.rstart = (b.rstart + b.rend) / 2 + 1 ∧ (b.split).2.rend = b.rend) ∧
    ((b.split).1.ksize = b.ksize ∧ (b.split).2.ksize = b.ksize ∧
     (b.split).1.max_replacement_nodes = b.ksize * f ∧
     (b.split).2.max_replacement_nodes = b.ksize * f) ∧
    (∀ n ∈ valuesOf b.nodes ++ valuesOf b.replacement_nodes,
      ((b.split).1.has_in_range n = true ∨ (b.split).2.has_in_range n = true) ∧
      ¬((b.split).1.has_in_range n = true ∧ (b.split).2.has_in_range n = true) ∧
      ((b.split).1.has_in_range n = true →
        (n.id ∈ keysOf (b.split).1.nodes ∨ n.id ∈ keysOf (b.split).1.replacement_nodes) ∧
        n.id ∉ keysOf (b.split).2.nodes ∧ n.id ∉ keysOf (b.split).2.replacement_nodes) ∧
      ((b.split).2.has_in_range n = true →
        (n.id ∈ keysOf (b.split).2.nodes ∨ n.id ∈ keysOf (b.split).2.replacement_nodes) ∧
        n.id ∉ keysOf (b.split).1.nodes ∧ n.id ∉ keysOf (b.split).1.replacement_nodes)) := by
  obtain ⟨hlen, hrlen, hndN, hndR, hdisj, hkN, hkR⟩ := hwf
  rw [hf] at hrlen
  have hmod : (b.rstart + b.rend) % 2 ^ 128 = b.rstart + b.rend := Nat.mod_eq_of_lt hov
  have hfac : b.max_replacement_nodes / b.ksize = f := by
    rw [hf]
    exact Nat.mul_div_cancel_left f hk
  set allv := valuesOf b.nodes ++ valuesOf b.replacement_nodes with hallv
  set mid := (b.rstart + b.rend) / 2 with hmiddef
  set ns1 := allv.filter (fun n => decide (node_id_to_u128 n.id ≤ mid)) with hns1
  set ns2 := allv.filter (fun n => !decide (node_id_to_u128 n.id ≤ mid)) with hns2
  have hndall : (allv.map Node.id).Nodup := by
    rw [hallv, List.map_append, map_id_valuesOf b.nodes hkN,
      map_id_valuesOf b.replacement_nodes hkR, List.nodup_append]
    exact ⟨hndN, hndR, fun x hx hx2 => hdisj x hx hx2⟩
  have hlenall : allv.length ≤ b.ksize + b.ksize * f := by
    rw [hallv, List.length_append]
    simp only [valuesOf, List.length_map]
    omega
  have hsplit : b.split =
      (((KBucket.new b.rstart mid b.ksize f).add_all ns1).1,
       ((KBucket.new (mid + 1) b.rend b.ksize f).add_all ns2).1) := by
    rw [KBucket.split]
    rw [hmod, hfac]
    exact split_fold_eq mid allv _ _
  have hc1 : (b.split).1 = KBucket.mk b.rstart mid
      (pairsOf (ns1.take b.ksize)) (pairsOf (ns1.drop b.ksize)) b.ksize (b.ksize * f) := by
    rw [hsplit]
    exact add_all_new_closed _ _ _ _ _
      (hndall.sublist ((List.filter_sublist _).map Node.id))
      (Nat.le_trans (List.length_filter_le _ _) hlenall)
  have hc2 : (b.split).2 = KBucket.mk (mid + 1) b.rend
      (pairsOf (ns2.take b.ksize)) (pairsOf (ns2.drop b.ksize)) b.ksize (b.ksize * f) := by
    rw [hsplit]
    exact add_all_new_closed _ _ _ _ _
      (hndall.sublist ((List.filter_sublist _).map Node.id))
      (Nat.le_trans (List.length_filter_le _ _) hlenall)
  refine ⟨⟨by rw [hc1], by rw [hc1], by rw [hc2], by rw [hc2]⟩,
    ⟨by rw [hc1], by rw [hc2], by rw [hc1], by rw [hc2]⟩, ?_⟩
  intro n hmemall
  have hrange := hin n hmemall
  rw [KBucket.has_in_range, Bool.and_eq_true, decide_eq_true_eq, decide_eq_true_eq] at hrange
  obtain ⟨hlo, hhi⟩ := hrange
  have hmem1iff : node_id_to_u128 n.id ≤ mid →
      (n.id ∈ keysOf (b.split).1.nodes ∨ n.id ∈ keysOf (b.split).1.replacement_nodes) := by
    intro hP
    have hn1 : n ∈ ns1 := List.mem_filter.mpr ⟨hmemall, by simp [hP]⟩
    have hmem1 : n.id ∈ ns1.map Node.id := List.mem_map_of_mem Node.id hn1
    rw [← List.take_append_drop b.ksize ns1, List.map_append] at hmem1
    rcases List.mem_append.mp hmem1 with h | h
    · left
      rw [hc1]
      show n.id ∈ keysOf (pairsOf (ns1.take b.ksize))
      rw [keysOf_pairsOf]
      exact h
    · right
      rw [hc1]
      show n.id ∈ keysOf (pairsOf (ns1.drop b.ksize))
      rw [keysOf_pairsOf]
      exact h
  have hmem2iff : ¬ node_id_to_u128 n.id ≤ mid →
      (n.id ∈ keysOf (b.split).2.nodes ∨ n.id ∈ keysOf (b.split).2.replacement_nodes) := by
    intro hP
    have hn2 : n ∈ ns2 := List.mem_filter.mpr ⟨hmemall, by simp [hP]⟩
    have hmem2 : n.id ∈ ns2.map Node.id := List.mem_map_of_mem Node.id hn2
    rw [← List.take_append_drop b.ksize ns2, List.map_append] at hmem2
    rcases List.mem_append.mp hmem2 with h | h
    · left
      rw [hc2]
      show n.id ∈ keysOf (pairsOf (ns2.take b.ksize))
      rw [keysOf_pairsOf]
      exact h
    · right
      rw [hc2]
      show n.id ∈ keysOf (pairsOf (ns2.drop b.ksize))
      rw [keysOf_pairsOf]
      exact h
  have hnot2 : node_id_to_u128 n.id ≤ mid → n.id ∉ ns2.map Node.id := by
    intro hP hmem2
    obtain ⟨m, hm2, hmid2⟩ := List.mem_map.mp hmem2
    have hmall : m ∈ allv := List.mem_of_mem_filter hm2
    have heq : m = n := List.inj_on_of_nodup_map hndall hmall hmemall hmid2
    subst heq
    have hcond := (List.mem_filter.mp hm2).2
    simp at hcond
    omega
  have hnot1 : ¬ node_id_to_u128 n.id ≤ mid → n.id ∉ ns1.map Node.id := by
    intro hP hmem1
    obtain ⟨m, hm1, hmid1⟩ := List.mem_map.mp hmem1
    have hmall : m ∈ allv := List.mem_of_mem_filter hm1
    have heq : m = n := List.inj_on_of_nodup_map hndall hmall hmemall hmid1
    subst heq
    have hcond := (List.mem_filter.mp hm1).2
    simp at hcond
    omega
  have hkeys2n : keysOf (b.split).2.nodes = (ns2.take b.ksize).map Node.id := by
    rw [hc2]
    show keysOf (pairsOf (ns2.take b.ksize)) = _
    exact keysOf_pairsOf _
  have hkeys2r : keysOf (b.split).2.replacement_nodes = (ns2.drop b.ksize).map Node.id := by
    rw [hc2]
    show keysOf (pairsOf (ns2.drop b.ksize)) = _
    exact keysOf_pairsOf _
  have hkeys1n : keysOf (b.split).1.nodes = (ns1.take b.ksize).map Node.id := by
    rw [hc1]
    show keysOf (pairsOf (ns1.take b.ksize)) = _
    exact keysOf_pairsOf _
  have hkeys1r : keysOf (b.split).1.replacement_nodes = (ns1.drop b.ksize).map Node.id := by
    rw [hc1]
    show keysOf (pairsOf (ns1.drop b.ksize)) = _
    exact keysOf_pairsOf _
  have hsub2n : ∀ i, i ∈ (ns2.take b.ksize).map Node.id → i ∈ ns2.map Node.id := by
    intro i hi
    obtain ⟨x, hx, hxi⟩ := List.mem_map.mp hi
    exact hxi ▸ List.mem_map_of_mem Node.id (List.mem_of_mem_take hx)
  have hsub2r : ∀ i, i ∈ (ns2.drop b.ksize).map Node.id → i ∈ ns2.map Node.id := by
    intro i hi
    obtain ⟨x, hx, hxi⟩ := List.mem_map.mp hi
    exact hxi ▸ List.mem_map_of_mem Node.id (List.mem_of_mem_drop hx)
  have hsub1n : ∀ i, i ∈ (ns1.take b.ksize).map Node.id → i ∈ ns1.map Node.id := by
    intro i hi
    obtain ⟨x, hx, hxi⟩ := List.mem_map.mp hi
    exact hxi ▸ List.mem_map_of_mem Node.id (List.mem_of_mem_take hx)
  have hsub1r : ∀ i, i ∈ (ns1.drop b.ksize).map Node.id → i ∈ ns1.map Node.id := by
    intro i hi
    obtain ⟨x, hx, hxi⟩ := List.mem_map.mp hi
    exact hxi ▸ List.mem_map_of_mem Node.id (List.mem_of_mem_drop hx)
  have hir1 : (b.split).1.has_in_range n = true ↔
      (b.rstart ≤ node_id_to_u128 n.id ∧ node_id_to_u128 n.id ≤ mid) := by
    rw [hc1]
    simp [KBucket.has_in_range]
  have hir2 : (b.split).2.has_in_range n = true ↔
      (mid + 1 ≤ node_id_to_u128 n.id ∧ node_id_to_u128 n.id ≤ b.rend) := by
    rw [hc2]
    simp [KBucket.has_in_range]
  refine ⟨?_, ?_, ?_, ?_⟩
  · by_cases hP : node_id_to_u128 n.id ≤ mid
    · exact Or.inl (hir1.mpr ⟨hlo, hP⟩)
    · exact Or.inr (hir2.mpr ⟨by omega, hhi⟩)
  · intro ⟨h1, h2⟩
    rw [hir1] at h1
    rw [hir2] at h2
    omega
  · intro h1
    have hP : node_id_to_u128 n.id ≤ mid := (hir1.mp h1).2
    refine ⟨hmem1iff hP, ?_, ?_⟩
    · rw [hkeys2n]
      intro hcontr
      exact hnot2 hP (hsub2n n.id hcontr)
    · rw [hkeys2r]
      intro hcontr
      exact hnot2 hP (hsub2r n.id hcontr)
  · intro h2
    have hP : ¬ node_id_to_u128 n.id ≤ mid := by
      have := (hir2.mp h2).1
      omega
    refine ⟨hmem2iff hP, ?_, ?_⟩
    · rw [hkeys1n]
      intro hcontr
      exact hnot1 hP (hsub1n n.id hcontr)
    · rw [hkeys1r]
      intro hcontr
      exact hnot1 hP (hsub1r n.id hcontr)

/-- Witness for C2: the spec's own scenario, a bucket over [0, 200]
holding one zero-magnitude peer; the children cover [0, 100] and
[101, 200] and the peer lands in the left child only. -/
theorem claim_C2_witness :
    ((KBucket.mk 0 200 [(mkId 0, mkNode 0)] [] 2 2).split).1.rend = 100 ∧
    ((KBucket.mk 0 200 [(mkId 0, mkNode 0)] [] 2 2).split).2.rstart = 101 ∧
    ((mkNode 0).id ∈ keysOf ((KBucket.mk 0 200 [(mkId 0, mkNode 0)] [] 2 2).split).1.nodes ∨
     (mkNode 0).id ∈
       keysOf ((KBucket.mk 0 200 [(mkId 0, mkNode 0)] [] 2 2).split).1.replacement_nodes) ∧
    (mkNode 0).id ∉ keysOf ((KBucket.mk 0 200 [(mkId 0, mkNode 0)] [] 2 2).split).2.nodes := by
  have hc := claim_C2 (KBucket.mk 0 200 [(mkId 0, mkNode 0)] [] 2 2) 1
    (by decide) (by decide) (by decide) (by decide) (by decide)
  refine ⟨?_, ?_, ?_, ?_⟩
  · rw [hc.1.2.1]
    decide
  · rw [hc.1.2.2.1]
    decide
  · exact ((hc.2.2 (mkNode 0) (by decide)).2.2.1 (by decide)).1
  · exact ((hc.2.2 (mkNode 0) (by decide)).2.2.1 (by decide)).2.1

end Dht
